import Mathlib

/-!
Verification of the `SimpleWeb` utility module (`src/web_server/utility.hpp`):
percent codec, query-string creation/parsing, HTTP header / request-line /
response-line parsing, Content-Disposition parsing, and the `ScopeRunner`
cancellation barrier.

Modelling conventions (shallow embedding):
* `std::string` is modelled as `List Char` (byte strings; all relevant
  characters are ASCII).
* `std::string::npos` sentinels stored in `size_t` variables are modelled as
  `Option Nat` (`none` = `npos`).  Where the C++ code computes with `npos`
  arithmetically (`npos - pos` is huge, so `substr` is clamped to the end of
  the string), the embedding uses the clamped result directly; where a plain
  `size_t` subtraction can wrap around, the wrap is modelled explicitly by
  `sizeSub`.
* `std::unordered_multimap` (`CaseInsensitiveMultimap`) is modelled as a list
  of `(key, value)` pairs in insertion order; the equalities proved below are
  therefore order-respecting refinements of the multiset statements.
* `std::istream` plus `std::getline` is modelled as a `List Char` from which
  `getline` splits off the text before the first `'\n'`.
-/

namespace SimpleWeb

/-- `s.substr(pos, len)` of C++ (`pos ≤ s.size()` in every use below):
takes at most `len` characters starting at `pos`, clamped to the end. -/
def substrLen (s : List Char) (pos len : Nat) : List Char :=
  (s.drop pos).take len

/-- `s.substr(pos)` of C++: everything from `pos` on. -/
def substrFrom (s : List Char) (pos : Nat) : List Char :=
  s.drop pos

/-- `size_t` subtraction with wrap-around (operands below `2^64`, as for any
real `std::string` index). -/
def sizeSub (a b : Nat) : Nat :=
  if b ≤ a then a - b else 2 ^ 64 - (b - a)

/-- `std::getline(stream, line)`: the text before the first `'\n'` (which is
consumed and discarded) and the remaining stream.  At end of input the line
comes back empty. -/
def getline : List Char → List Char × List Char
  | [] => ([], [])
  | c :: rest =>
    if c = '\n' then ([], rest)
    else
      let p := getline rest
      (c :: p.1, p.2)

/-- `s.find(ch, i)` of C++, reported as an absolute index: `findAt rem ch i`
scans `rem` (which the callers pass as `s.drop i`) counting from `i`. -/
def findAt : List Char → Char → Nat → Option Nat
  | [], _, _ => none
  | c :: rest, ch, i => if c = ch then some i else findAt rest ch (i + 1)

/-- Index of the last occurrence of `ch` in `s` (used to describe the loops
that keep overwriting a "separator position" variable on every occurrence). -/
def lastIdxOf : List Char → Char → Option Nat
  | [], _ => none
  | c :: rest, ch =>
    match lastIdxOf rest ch with
    | some i => some (i + 1)
    | none => if c = ch then some 0 else none

/-! ### Basic lemmas about the helpers -/

theorem getline_rest_length_le (s : List Char) : (getline s).2.length ≤ s.length := by
  induction s with
  | nil => simp [getline]
  | cons c rest ih =>
    simp only [getline]
    split
    · simp
    · simpa using Nat.le_succ_of_le ih

theorem getline_rest_length_lt (s : List Char) (h : s ≠ []) :
    (getline s).2.length < s.length := by
  cases s with
  | nil => exact absurd rfl h
  | cons c rest =>
    simp only [getline]
    split
    · simp
    · simpa using Nat.lt_succ_of_le (getline_rest_length_le rest)

theorem getline_append (l rest : List Char) (h : '\n' ∉ l) :
    getline (l ++ '\n' :: rest) = (l, rest) := by
  induction l with
  | nil => simp [getline]
  | cons c t ih =>
    simp only [List.mem_cons, not_or] at h
    have hc : ¬c = '\n' := fun hh => h.1 hh.symm
    simp [getline, hc, ih h.2]

theorem findAt_eq_none (rem : List Char) (ch : Char) (i : Nat) :
    findAt rem ch i = none ↔ ch ∉ rem := by
  induction rem generalizing i with
  | nil => simp [findAt]
  | cons c rest ih =>
    by_cases hc : c = ch
    · simp [findAt, hc]
    · simp [findAt, hc, ih, Ne.symm hc]

theorem lastIdxOf_eq_none (s : List Char) (ch : Char) :
    lastIdxOf s ch = none ↔ ch ∉ s := by
  induction s with
  | nil => simp [lastIdxOf]
  | cons c rest ih =>
    simp only [lastIdxOf]
    cases h : lastIdxOf rest ch with
    | some i => simp [h, ih.symm]
    | none =>
      by_cases hc : c = ch
      · simp [hc, h]
      · simp [hc, h, ih.mp h, Ne.symm hc]

theorem lastIdxOf_append_some (a b : List Char) (ch : Char) (i : Nat)
    (h : lastIdxOf b ch = some i) : lastIdxOf (a ++ b) ch = some (a.length + i) := by
  induction a with
  | nil => simpa using h
  | cons c t ih =>
    simp only [List.cons_append, lastIdxOf, List.append_eq, ih, List.length_cons]
    exact congrArg some (by omega)

theorem lastIdxOf_append_none (a b : List Char) (ch : Char)
    (h : lastIdxOf b ch = none) : lastIdxOf (a ++ b) ch = lastIdxOf a ch := by
  induction a with
  | nil => simpa using h
  | cons c t ih => simp only [List.cons_append, lastIdxOf, List.append_eq, ih]

theorem lastIdxOf_le_length (s : List Char) (ch : Char) (i : Nat)
    (h : lastIdxOf s ch = some i) : i < s.length := by
  induction s generalizing i with
  | nil => simp [lastIdxOf] at h
  | cons c rest ih =>
    simp only [lastIdxOf] at h
    cases h2 : lastIdxOf rest ch with
    | some j =>
      rw [h2] at h
      simp only [Option.some.injEq] at h
      subst h
      simpa using ih j h2
    | none =>
      rw [h2] at h
      by_cases hc : c = ch
      · simp [hc] at h
        simp [← h]
      · simp [hc] at h

/-! ### Percent codec (`Percent::encode`, `Percent::decode`) -/

/-- The literal `"0123456789ABCDEF"` indexed by `hex_chars[n]`. -/
def hexChars : List Char :=
  ['0', '1', '2', '3', '4', '5', '6', '7', '8', '9', 'A', 'B', 'C', 'D', 'E', 'F']

def hexChar (n : Nat) : Char := hexChars.getD n '0'

/-- The reserved-set test of `Percent::encode` (note: `'%'` is *not* in it). -/
def percentReserved (c : Char) : Bool :=
  c = '!' || c = '#' || c = '$' || ('&' ≤ c && c ≤ ',') || ('/' ≤ c && c ≤ ';') ||
    c = '=' || c = '?' || c = '@' || c = '[' || c = ']'

def encodeChar (c : Char) : List Char :=
  if c = ' ' then ['+']
  else if percentReserved c then
    ['%', hexChar (c.toNat / 16), hexChar (c.toNat % 16)]
  else [c]

namespace Percent

/-- `Percent::encode`: space to `'+'`, reserved characters to `%XX`
(uppercase hex), everything else unchanged. -/
def encode : List Char → List Char
  | [] => []
  | c :: rest => encodeChar c ++ encode rest

/-- Whether `strtol` with base 16 accepts `c` as a digit. -/
def isHexDigit (c : Char) : Bool :=
  ('0' ≤ c && c ≤ '9') || ('a' ≤ c && c ≤ 'f') || ('A' ≤ c && c ≤ 'F')

def hexVal (c : Char) : Nat :=
  if '0' ≤ c && c ≤ '9' then c.toNat - 48
  else if 'a' ≤ c && c ≤ 'f' then c.toNat - 87
  else c.toNat - 55

/-- `isspace` of C on the characters reachable here. -/
def isSpaceC (c : Char) : Bool :=
  c = ' ' || c = '\t' || c = '\n' || c = '\x0b' || c = '\x0c' || c = '\r'

/-- `std::strtol(hex, nullptr, 16)` on the exactly-two-character string
`[a, b]`: skip whitespace, optional sign, then the longest hex-digit prefix;
no digits at all gives `0`. -/
def strtol16Pair (a b : Char) : Int :=
  if isSpaceC a then (if isHexDigit b then (hexVal b : Int) else 0)
  else if a = '+' then (if isHexDigit b then (hexVal b : Int) else 0)
  else if a = '-' then (if isHexDigit b then -(hexVal b : Int) else 0)
  else if isHexDigit a then
    (if isHexDigit b then (16 * hexVal a + hexVal b : Nat) else (hexVal a : Nat))
  else 0

/-- `static_cast<char>(strtol(...))` appended to the result string: the value
wraps to a byte. -/
def decodeByte (a b : Char) : Char :=
  Char.ofNat ((strtol16Pair a b % 256).toNat)

/-- `Percent::decode`: `'%'` with at least two following characters consumes
three characters and emits the `strtol`-decoded byte; `'+'` becomes space;
everything else (including a trailing `'%'`) passes through. -/
def decode : List Char → List Char
  | [] => []
  | c :: d :: e :: rest =>
    if c = '%' then decodeByte d e :: decode rest
    else if c = '+' then ' ' :: decode (d :: e :: rest)
    else c :: decode (d :: e :: rest)
  | c :: rest =>
    if c = '+' then ' ' :: decode rest else c :: decode rest

end Percent

/-! ### Round-trip lemmas for the percent codec -/

theorem decode_cons_plus (s : List Char) :
    Percent.decode ('+' :: s) = ' ' :: Percent.decode s := by
  match s with
  | [] => rfl
  | [d] => rfl
  | d :: e :: t => simp [Percent.decode]

theorem decode_cons_ne (c : Char) (s : List Char) (h1 : c ≠ '%') (h2 : c ≠ '+') :
    Percent.decode (c :: s) = c :: Percent.decode s := by
  match s with
  | [] => simp [Percent.decode, h2]
  | [d] => simp [Percent.decode, h2]
  | d :: e :: t => simp [Percent.decode, h1, h2]

theorem decode_cons_percent (d e : Char) (t : List Char) :
    Percent.decode ('%' :: d :: e :: t) = Percent.decodeByte d e :: Percent.decode t := by
  simp [Percent.decode]

theorem percentReserved_bounds (c : Char) (h : percentReserved c = true) :
    32 < c.toNat ∧ c.toNat < 94 := by
  simp only [percentReserved, Bool.or_eq_true, Bool.and_eq_true, decide_eq_true_eq] at h
  rcases h with ((((((((h | h) | h) | ⟨h1, h2⟩) | ⟨h1, h2⟩) | h) | h) | h) | h) | h
  · subst h; exact ⟨by decide, by decide⟩
  · subst h; exact ⟨by decide, by decide⟩
  · subst h; exact ⟨by decide, by decide⟩
  · exact ⟨Nat.lt_of_lt_of_le (by decide) (h1 : ('&').toNat ≤ c.toNat),
      Nat.lt_of_le_of_lt (h2 : c.toNat ≤ (',').toNat) (by decide)⟩
  · exact ⟨Nat.lt_of_lt_of_le (by decide) (h1 : ('/').toNat ≤ c.toNat),
      Nat.lt_of_le_of_lt (h2 : c.toNat ≤ (';').toNat) (by decide)⟩
  · subst h; exact ⟨by decide, by decide⟩
  · subst h; exact ⟨by decide, by decide⟩
  · subst h; exact ⟨by decide, by decide⟩
  · subst h; exact ⟨by decide, by decide⟩
  · subst h; exact ⟨by decide, by decide⟩

theorem decodeByte_hexChar (n : Fin 94) (h : 32 < n.val) :
    Percent.decodeByte (hexChar (n.val / 16)) (hexChar (n.val % 16)) = Char.ofNat n.val := by
  revert h
  revert n
  decide

theorem decode_encodeChar (c : Char) (s : List Char) (hc : c ≠ '%') :
    Percent.decode (encodeChar c ++ s) = c :: Percent.decode s := by
  by_cases hsp : c = ' '
  · subst hsp
    show Percent.decode ('+' :: s) = _
    rw [decode_cons_plus]
  · by_cases hres : percentReserved c
    · have hb := percentReserved_bounds c hres
      have he : encodeChar c = ['%', hexChar (c.toNat / 16), hexChar (c.toNat % 16)] := by
        simp [encodeChar, hsp, hres]
      rw [he, List.cons_append, List.cons_append, List.cons_append, List.nil_append,
        decode_cons_percent]
      have := decodeByte_hexChar ⟨c.toNat, hb.2⟩ hb.1
      rw [this, Char.ofNat_toNat]
    · have he : encodeChar c = [c] := by
        simp [encodeChar, hsp, hres]
      have hplus : c ≠ '+' := by
        intro hh
        subst hh
        exact hres (by decide)
      rw [he, List.cons_append, List.nil_append]
      exact decode_cons_ne c s hc hplus

theorem decode_encode (x : List Char) (h : '%' ∉ x) :
    Percent.decode (Percent.encode x) = x := by
  induction x with
  | nil => rfl
  | cons c rest ih =>
    simp only [List.mem_cons, not_or] at h
    have hc : c ≠ '%' := fun hh => h.1 hh.symm
    show Percent.decode (encodeChar c ++ Percent.encode rest) = c :: rest
    rw [decode_encodeChar c _ hc, ih h.2]

/-- Characters that `Percent::encode` can emit are never `'&'` or `'='`
(both are in the reserved set, hex digits and `'+'`/`'%'` are not them). -/
theorem mem_encodeChar_ne (c ch : Char) (h : ch ∈ encodeChar c) : ch ≠ '&' ∧ ch ≠ '=' := by
  have hfin : ∀ m : Fin 16, hexChar m.val ≠ '&' ∧ hexChar m.val ≠ '=' := by decide
  have hhex : ∀ n : Nat, hexChar n ≠ '&' ∧ hexChar n ≠ '=' := by
    intro n
    by_cases hn : n < 16
    · exact hfin ⟨n, hn⟩
    · have : hexChar n = '0' := by
        simp only [hexChar]
        exact List.getD_eq_default _ _ (by simpa [hexChars] using Nat.le_of_not_lt hn)
      rw [this]
      exact ⟨by decide, by decide⟩
  by_cases hsp : c = ' '
  · subst hsp
    rw [show encodeChar ' ' = ['+'] from rfl, List.mem_singleton] at h
    subst h
    exact ⟨by decide, by decide⟩
  · by_cases hres : percentReserved c
    · have he : encodeChar c = ['%', hexChar (c.toNat / 16), hexChar (c.toNat % 16)] := by
        simp [encodeChar, hsp, hres]
      rw [he] at h
      simp only [List.mem_cons, List.not_mem_nil, or_false, List.mem_singleton] at h
      rcases h with h | h | h
      · subst h; exact ⟨by decide, by decide⟩
      · subst h; exact hhex _
      · subst h; exact hhex _
    · have he : encodeChar c = [c] := by
        simp [encodeChar, hsp, hres]
      rw [he, List.mem_singleton] at h
      subst h
      constructor
      · intro hh; subst hh; exact hres (by decide)
      · intro hh; subst hh; exact hres (by decide)

theorem encode_not_mem_amp (v : List Char) : '&' ∉ Percent.encode v := by
  induction v with
  | nil => simp [Percent.encode]
  | cons c rest ih =>
    show '&' ∉ encodeChar c ++ Percent.encode rest
    simp only [List.mem_append, not_or]
    exact ⟨fun hm => (mem_encodeChar_ne c '&' hm).1 rfl, ih⟩

theorem encode_not_mem_eq (v : List Char) : '=' ∉ Percent.encode v := by
  induction v with
  | nil => simp [Percent.encode]
  | cons c rest ih =>
    show '=' ∉ encodeChar c ++ Percent.encode rest
    simp only [List.mem_append, not_or]
    exact ⟨fun hm => (mem_encodeChar_ne c '=' hm).2 rfl, ih⟩

end SimpleWeb
namespace SimpleWeb
namespace QueryString

def createGo : List (List Char × List Char) → Bool → List Char
  | [], _ => []
  | f :: rest, first =>
    (if first then [] else ['&']) ++ f.1 ++ '=' :: Percent.encode f.2 ++ createGo rest false

def create (fields : List (List Char × List Char)) : List Char :=
  createGo fields true

def parseGo (q : List Char) : List Char → Nat → Nat → Option Nat → Option Nat →
    List (List Char × List Char) → List (List Char × List Char)
  | [], _, np, nep, vp, res =>
    if np < q.length then
      let name := match nep with
        | none => substrFrom q np
        | some e => substrLen q np (e - np)
      if name = [] then res
      else
        res ++ [(name, Percent.decode (match vp with
          | none => []
          | some v => if q.length ≤ v then [] else substrFrom q v))]
    else res
  | ch :: rest, c, np, nep, vp, res =>
    if ch = '&' then
      let name := substrLen q np ((match nep with | none => c | some e => e) - np)
      let res2 := if name = [] then res
        else res ++ [(name, Percent.decode (match vp with
          | none => []
          | some v => substrLen q v (c - v)))]
      parseGo q rest (c + 1) (c + 1) none none res2
    else if ch = '=' then
      parseGo q rest (c + 1) np (some c) (some (c + 1)) res
    else
      parseGo q rest (c + 1) np nep vp res

def parse (q : List Char) : List (List Char × List Char) :=
  if q = [] then [] else parseGo q q 0 0 none none []

def segEntry (s : List Char) : List (List Char × List Char) :=
  match lastIdxOf s '=' with
  | none => if s = [] then [] else [(s, [])]
  | some e => if s.take e = [] then [] else [(s.take e, Percent.decode (s.drop (e + 1)))]

def segsOut : List Char → List Char → List (List Char × List Char)
  | [], cur => segEntry cur
  | ch :: rest, cur =>
    if ch = '&' then segEntry cur ++ segsOut rest []
    else segsOut rest (cur ++ [ch])

end QueryString
end SimpleWeb
namespace SimpleWeb
namespace QueryString

theorem substrLen_window_length (q : List Char) (np c : Nat) (hnp : np ≤ c)
    (hc : c ≤ q.length) : (substrLen q np (c - np)).length = c - np := by
  simp only [substrLen, List.length_take, List.length_drop]
  omega

theorem substrLen_window_succ (q : List Char) (np c : Nat) (ch : Char) (hnp : np ≤ c)
    (hget : q[c]? = some ch) :
    substrLen q np (c + 1 - np) = substrLen q np (c - np) ++ [ch] := by
  have h1 : c + 1 - np = (c - np) + 1 := by omega
  rw [substrLen, substrLen, h1, List.take_succ, List.getElem?_drop]
  have h2 : np + (c - np) = c := by omega
  rw [h2, hget]
  rfl

theorem decode_nil : Percent.decode [] = [] := rfl

theorem parseGo_eq (q : List Char) (rem : List Char) :
    ∀ (c np : Nat) (res : List (List Char × List Char)),
    rem = q.drop c → np ≤ c → c ≤ q.length →
    parseGo q rem c np
      (Option.map (fun l => l + np) (lastIdxOf (substrLen q np (c - np)) '='))
      (Option.map (fun l => l + np + 1) (lastIdxOf (substrLen q np (c - np)) '='))
      res
    = res ++ segsOut rem (substrLen q np (c - np)) := by
  induction rem with
  | nil =>
    intro c np res hrem hnp hc
    have hcl : q.length ≤ c := by
      have := congrArg List.length hrem
      simp only [List.length_nil, List.length_drop] at this
      omega
    have hceq : c = q.length := le_antisymm hc hcl
    subst hceq
    have hw : substrLen q np (q.length - np) = q.drop np := by
      rw [substrLen]
      exact List.take_of_length_le (by simp)
    rw [hw]
    by_cases hnpl : np < q.length
    · have hne : ¬ q.drop np = [] := by
        intro hh
        have := congrArg List.length hh
        simp only [List.length_drop, List.length_nil] at this
        omega
      cases hlast : lastIdxOf (q.drop np) '=' with
      | none =>
        simp only [Option.map_none']
        simp only [parseGo, hnpl, if_true, substrFrom, segsOut, segEntry, hlast]
        simp [hne, decode_nil]
      | some l =>
        have hll : l < (q.drop np).length := lastIdxOf_le_length _ _ _ hlast
        simp only [List.length_drop] at hll
        simp only [Option.map_some']
        simp only [parseGo, hnpl, if_true, segsOut, segEntry, hlast]
        have hname : substrLen q np (l + np - np) = (q.drop np).take l := by
          rw [substrLen]
          have he : l + np - np = l := by omega
          rw [he]
        rw [hname]
        have hval : (if q.length ≤ l + np + 1 then ([] : List Char)
            else substrFrom q (l + np + 1)) = (q.drop np).drop (l + 1) := by
          by_cases hv : q.length ≤ l + np + 1
          · have hz : (q.drop np).drop (l + 1) = [] := by
              apply List.drop_eq_nil_of_le
              simp only [List.length_drop]
              omega
            simp [hv, hz]
          · simp only [hv, if_false, substrFrom, List.drop_drop]
            congr 1
            omega
        rw [hval]
        by_cases hke : (q.drop np).take l = []
        · simp [hke]
        · simp [hke]
    · have hwnil : q.drop np = [] := List.drop_eq_nil_of_le (by omega)
      rw [hwnil]
      simp [parseGo, hnpl, segsOut, segEntry, lastIdxOf]
  | cons ch rest ih =>
    intro c np res hrem hnp hc
    have hlen : (q.drop c).length = rest.length + 1 := by
      rw [← hrem]
      simp
    have hclt : c < q.length := by
      simp only [List.length_drop] at hlen
      omega
    have hget : q[c]? = some ch := by
      have h0 : (q.drop c)[0]? = some ch := by
        rw [← hrem]
        simp
      rw [List.getElem?_drop] at h0
      simpa using h0
    have hrest : rest = q.drop (c + 1) := by
      have hh : (q.drop c).drop 1 = rest := by
        rw [← hrem]
        rfl
      rw [List.drop_drop] at hh
      exact hh.symm
    set w := substrLen q np (c - np) with hwdef
    have hwlen : w.length = c - np := substrLen_window_length q np c hnp hc
    have hwsucc : substrLen q np (c + 1 - np) = w ++ [ch] :=
      substrLen_window_succ q np c ch hnp hget
    by_cases hamp : ch = '&'
    · subst hamp
      have hstep := ih (c + 1) (c + 1) (res ++ segEntry w) hrest (le_refl _) hclt
      have hz : substrLen q (c + 1) (c + 1 - (c + 1)) = [] := by
        simp [substrLen]
      rw [hz] at hstep
      simp only [lastIdxOf, Option.map_none'] at hstep
      cases hlast : lastIdxOf w '=' with
      | none =>
        simp only [Option.map_none']
        simp only [parseGo, if_true]
        have hkey : (if w = [] then res else res ++ [(w, Percent.decode [])])
            = res ++ segEntry w := by
          by_cases hke : w = []
          · simp [hke, segEntry, lastIdxOf]
          · simp [hke, segEntry, hlast, decode_nil]
        rw [hkey, hstep]
        simp [segsOut, List.append_assoc]
      | some l =>
        have hll : l < w.length := lastIdxOf_le_length _ _ _ hlast
        simp only [Option.map_some']
        simp only [parseGo, if_true]
        have hname : substrLen q np (l + np - np) = w.take l := by
          rw [hwdef, substrLen, substrLen, List.take_take]
          congr 1
          omega
        have hval : substrLen q (l + np + 1) (c - (l + np + 1)) = w.drop (l + 1) := by
          rw [hwdef, substrLen, substrLen, List.drop_take, List.drop_drop]
          have e1 : c - (l + np + 1) = c - np - (l + 1) := by omega
          have e2 : np + (l + 1) = l + np + 1 := by omega
          rw [e1, e2]
        rw [hname, hval]
        have hkey : (if w.take l = [] then res
            else res ++ [(w.take l, Percent.decode (w.drop (l + 1)))])
            = res ++ segEntry w := by
          by_cases hke : w.take l = []
          · simp [hke, segEntry, hlast]
          · simp [hke, segEntry, hlast]
        rw [hkey, hstep]
        simp [segsOut, List.append_assoc]
    · by_cases heqs : ch = '='
      · subst heqs
        simp only [parseGo, if_neg hamp, if_true]
        have hlW : lastIdxOf (w ++ ['=']) '=' = some (c - np) := by
          have h0 : lastIdxOf ['='] '=' = some 0 := by simp [lastIdxOf]
          rw [lastIdxOf_append_some w ['='] '=' 0 h0, hwlen]
          simp
        have hstep := ih (c + 1) np res hrest (by omega) (by omega)
        rw [hwsucc, hlW] at hstep
        simp only [Option.map_some'] at hstep
        have e3 : c - np + np = c := by omega
        rw [e3] at hstep
        rw [hstep]
        simp [segsOut]
      · simp only [parseGo, if_neg hamp, if_neg heqs]
        have hl1 : lastIdxOf [ch] '=' = none := by simp [lastIdxOf, heqs]
        have hlW : lastIdxOf (w ++ [ch]) '=' = lastIdxOf w '=' :=
          lastIdxOf_append_none _ _ _ hl1
        have hstep := ih (c + 1) np res hrest (by omega) (by omega)
        rw [hwsucc, hlW] at hstep
        rw [hstep]
        simp [segsOut, hamp]

theorem parse_eq_segsOut (q : List Char) : parse q = segsOut q [] := by
  by_cases hq : q = []
  · subst hq
    simp [parse, segsOut, segEntry, lastIdxOf]
  · have h0 := parseGo_eq q q 0 0 [] (by simp) (le_refl 0) (Nat.zero_le _)
    have hz : substrLen q 0 (0 - 0) = [] := by simp [substrLen]
    rw [hz] at h0
    simp only [lastIdxOf, Option.map_none'] at h0
    simp only [parse, hq, if_neg, List.nil_append] at h0
    simpa [parse, hq] using h0

end QueryString
end SimpleWeb

namespace SimpleWeb
namespace QueryString

theorem segsOut_append_no_amp (s : List Char) :
    ∀ (t cur : List Char), '&' ∉ s → segsOut (s ++ t) cur = segsOut t (cur ++ s) := by
  induction s with
  | nil => intro t cur _; simp
  | cons c cs ih =>
    intro t cur h
    simp only [List.mem_cons, not_or] at h
    have hc : ¬ c = '&' := fun hh => h.1 hh.symm
    simp only [List.cons_append, segsOut, if_neg hc, List.append_eq]
    rw [ih t (cur ++ [c]) h.2, List.append_assoc]
    rfl

theorem segsOut_no_amp (s : List Char) (h : '&' ∉ s) : segsOut s [] = segEntry s := by
  have h0 := segsOut_append_no_amp s [] [] h
  simpa [segsOut] using h0

theorem segEntry_keyval (k v : List Char) (hk : k ≠ []) :
    segEntry (k ++ '=' :: Percent.encode v) =
      [(k, Percent.decode (Percent.encode v))] := by
  have h2 : lastIdxOf (Percent.encode v) '=' = none :=
    (lastIdxOf_eq_none _ _).mpr (encode_not_mem_eq v)
  have h1 : lastIdxOf ('=' :: Percent.encode v) '=' = some 0 := by
    simp [lastIdxOf, h2]
  have h3 : lastIdxOf (k ++ '=' :: Percent.encode v) '=' = some k.length := by
    rw [lastIdxOf_append_some _ _ _ 0 h1]
    simp
  simp only [segEntry, h3, List.take_left]
  have h4 : (k ++ '=' :: Percent.encode v).drop (k.length + 1) = Percent.encode v := by
    have h5 : k.length + 1 = (k ++ ['=']).length := by simp
    have h6 : k ++ '=' :: Percent.encode v = (k ++ ['=']) ++ Percent.encode v := by simp
    rw [h5, h6, List.drop_left]
  rw [h4]
  simp [hk]

theorem amp_not_mem_segment (k v : List Char) (hka : '&' ∉ k) :
    '&' ∉ k ++ '=' :: Percent.encode v := by
  simp only [List.mem_append, List.mem_cons, not_or]
  exact ⟨hka, by decide, encode_not_mem_amp v⟩

theorem segsOut_createGo (m : List (List Char × List Char)) :
    ∀ (k v : List Char), k ≠ [] → '&' ∉ k →
    (∀ p ∈ m, p.1 ≠ [] ∧ '&' ∉ p.1) →
    segsOut (k ++ '=' :: Percent.encode v ++ createGo m false) [] =
      (k, Percent.decode (Percent.encode v)) ::
        m.map (fun p => (p.1, Percent.decode (Percent.encode p.2))) := by
  induction m with
  | nil =>
    intro k v hk hka _
    simp only [createGo, List.append_nil, List.map_nil]
    rw [segsOut_no_amp _ (amp_not_mem_segment k v hka), segEntry_keyval k v hk]
  | cons p rest ih =>
    intro k v hk hka hm
    have hp := hm p (List.mem_cons_self p rest)
    have hrest : ∀ x ∈ rest, x.1 ≠ [] ∧ '&' ∉ x.1 :=
      fun x hx => hm x (List.mem_cons_of_mem p hx)
    have hsplit : k ++ '=' :: Percent.encode v ++ createGo (p :: rest) false =
        (k ++ '=' :: Percent.encode v) ++
          '&' :: (p.1 ++ '=' :: Percent.encode p.2 ++ createGo rest false) := by
      simp [createGo]
    rw [hsplit,
      segsOut_append_no_amp (k ++ '=' :: Percent.encode v) _ _
        (amp_not_mem_segment k v hka)]
    simp only [segsOut, if_pos, List.nil_append]
    rw [segEntry_keyval k v hk, ih p.1 p.2 hp.1 hp.2 hrest]
    simp

theorem map_decode_encode_id (m : List (List Char × List Char))
    (h : ∀ p ∈ m, '%' ∉ p.2) :
    m.map (fun p => (p.1, Percent.decode (Percent.encode p.2))) = m := by
  induction m with
  | nil => rfl
  | cons p rest ih =>
    have hp := h p (List.mem_cons_self p rest)
    have hrest : ∀ x ∈ rest, '%' ∉ x.2 := fun x hx => h x (List.mem_cons_of_mem p hx)
    simp only [List.map_cons, decode_encode p.2 hp, ih hrest]

/-- `QueryString::parse` inverts `QueryString::create` for multimaps whose
keys are non-empty and `&`-free and whose values are `%`-free. -/
theorem parse_create (m : List (List Char × List Char))
    (h : ∀ p ∈ m, p.1 ≠ [] ∧ '&' ∉ p.1 ∧ '%' ∉ p.2) :
    parse (create m) = m := by
  cases m with
  | nil => rfl
  | cons p rest =>
    have hp := h p (List.mem_cons_self p rest)
    have hkeys : ∀ x ∈ p :: rest, x.1 ≠ [] ∧ '&' ∉ x.1 :=
      fun x hx => ⟨(h x hx).1, (h x hx).2.1⟩
    have hrest : ∀ x ∈ p :: rest, x.1 ≠ [] ∧ '&' ∉ x.1 := hkeys
    have hcr : create (p :: rest) = p.1 ++ '=' :: Percent.encode p.2 ++ createGo rest false := by
      simp [create, createGo]
    rw [parse_eq_segsOut, hcr,
      segsOut_createGo rest p.1 p.2 hp.1 hp.2.1
        (fun x hx => hkeys x (List.mem_cons_of_mem p hx))]
    have hvals : ∀ x ∈ p :: rest, '%' ∉ x.2 := fun x hx => (h x hx).2.2
    have := map_decode_encode_id rest (fun x hx => hvals x (List.mem_cons_of_mem p hx))
    rw [this, decode_encode p.2 (hvals p (List.mem_cons_self p rest))]

end QueryString
end SimpleWeb

namespace SimpleWeb

/-- `HttpHeader::parse`: consume lines while they contain a `':'`.  For each
such line, `value_start` is the position after the first `':'`, advanced over
at most one leading space; an entry `(text before ':', text from value_start
with the last character dropped)` is emplaced only when `value_start` is still
inside the line.  The first line with no `':'` stops the loop.  Never fails. -/
def HttpHeader.parse (stream : List Char) : List (List Char × List Char) :=
  match hfind : findAt (getline stream).1 ':' 0 with
  | none => []
  | some pe =>
    (if h1 : pe + 1 < (getline stream).1.length then
      let vs := if (getline stream).1.get ⟨pe + 1, h1⟩ = ' ' then pe + 2 else pe + 1
      if vs < (getline stream).1.length then
        [(substrLen (getline stream).1 0 pe,
          substrLen (getline stream).1 vs ((getline stream).1.length - vs - 1))]
      else []
    else []) ++ HttpHeader.parse (getline stream).2
termination_by stream.length
decreasing_by
  apply getline_rest_length_lt
  intro hs
  rw [hs] at hfind
  simp [getline, findAt] at hfind

/-- Per-line header entry as the (amended) spec describes it: name is the
text before the first `':'`; the text after it, with at most one leading
space stripped, must be non-empty, and its last character is dropped. -/
def hdrEntry (l : List Char) (pe : Nat) : List (List Char × List Char) :=
  let stripped :=
    if (l.drop (pe + 1)).head? = some ' ' then (l.drop (pe + 1)).tail else l.drop (pe + 1)
  if stripped = [] then [] else [(l.take pe, stripped.dropLast)]

theorem HttpHeader.parse_line (l rest : List Char) (h : '\n' ∉ l) :
    HttpHeader.parse (l ++ '\n' :: rest) =
      (match findAt l ':' 0 with
       | none => []
       | some pe => hdrEntry l pe ++ HttpHeader.parse rest) := by
  rw [HttpHeader.parse, getline_append l rest h]
  cases hfind : findAt l ':' 0 with
  | none => rfl
  | some pe =>
    simp only []
    congr 1
    by_cases h1 : pe + 1 < l.length
    · have hhead : (l.drop (pe + 1)).head? = l[pe + 1]? := by
        rw [List.head?_eq_getElem?, List.getElem?_drop]
      have hget : l[pe + 1]? = some (l.get ⟨pe + 1, h1⟩) := List.getElem?_eq_getElem h1
      have hname : substrLen l 0 pe = l.take pe := by simp [substrLen]
      rw [dif_pos h1]
      by_cases hsp : l.get ⟨pe + 1, h1⟩ = ' '
      · rw [if_pos hsp]
        simp only [hdrEntry]
        have hstr : (if (l.drop (pe + 1)).head? = some ' '
            then (l.drop (pe + 1)).tail else l.drop (pe + 1)) = l.drop (pe + 2) := by
          rw [hhead, hget, hsp, if_pos rfl, List.tail_drop]
        rw [hstr]
        by_cases h2 : pe + 2 < l.length
        · rw [if_pos h2]
          have hne : ¬ l.drop (pe + 2) = [] := by
            intro hh
            have := congrArg List.length hh
            simp only [List.length_drop, List.length_nil] at this
            omega
          rw [if_neg hne, hname]
          have hval : substrLen l (pe + 2) (l.length - (pe + 2) - 1)
              = (l.drop (pe + 2)).dropLast := by
            rw [List.dropLast_eq_take, substrLen, List.length_drop]
          rw [hval]
        · rw [if_neg h2]
          have hnil : l.drop (pe + 2) = [] := List.drop_eq_nil_of_le (by omega)
          rw [hnil, if_pos rfl]
      · rw [if_neg hsp]
        simp only [hdrEntry]
        have hstr : (if (l.drop (pe + 1)).head? = some ' '
            then (l.drop (pe + 1)).tail else l.drop (pe + 1)) = l.drop (pe + 1) := by
          rw [hhead, hget]
          have hne2 : ¬ (some (l.get ⟨pe + 1, h1⟩) = some ' ') := by simpa using hsp
          rw [if_neg hne2]
        rw [hstr, if_pos h1]
        have hne : ¬ l.drop (pe + 1) = [] := by
          intro hh
          have := congrArg List.length hh
          simp only [List.length_drop, List.length_nil] at this
          omega
        rw [if_neg hne, hname]
        have hval : substrLen l (pe + 1) (l.length - (pe + 1) - 1)
            = (l.drop (pe + 1)).dropLast := by
          rw [List.dropLast_eq_take, substrLen, List.length_drop]
        rw [hval]
    · rw [dif_neg h1]
      simp only [hdrEntry]
      have hnil : l.drop (pe + 1) = [] := List.drop_eq_nil_of_le (by omega)
      simp [hnil]

end SimpleWeb

namespace SimpleWeb

/-- Result record for `RequestMessage::parse`: the returned `bool` plus the
five by-reference out-parameters.  Failure paths leave the out-parameters at
whatever value they had when the failing check ran (the initial values are
passed in), except `header`, which is cleared on entry. -/
structure ReqResult where
  ok : Bool
  method : List Char
  path : List Char
  query_string : List Char
  version : List Char
  header : List (List Char × List Char)
deriving DecidableEq

/-- The scanning loop of `RequestMessage::parse`: from index `i` (with `rem`
the corresponding suffix of `line`), every `'?'` that is not the last
character of the line overwrites `query_start` with the position after it;
the first space ends the scan and becomes `path_and_query_string_end`. -/
def reqScan (line : List Char) : List Char → Nat → Option Nat → Option Nat × Option Nat
  | [], _, qs => (qs, none)
  | ch :: rest, i, qs =>
    if ch = '?' ∧ i + 1 < line.length then reqScan line rest (i + 1) (some (i + 1))
    else if ch = ' ' then (qs, some i)
    else reqScan line rest (i + 1) qs

/-- `RequestMessage::parse`.  `method0` … `header0` are the values held by the
out-parameters at the call. -/
def RequestMessage.parse (stream method0 path0 query0 version0 : List Char)
    (header0 : List (List Char × List Char)) : ReqResult :=
  let line := (getline stream).1
  match findAt line ' ' 0 with
  | none => ⟨false, method0, path0, query0, version0, []⟩
  | some me =>
    let method := substrLen line 0 me
    match reqScan line (line.drop (me + 1)) (me + 1) none with
    | (_, none) => ⟨false, method, path0, query0, version0, []⟩
    | (qs, some e) =>
      let pq : List Char × List Char :=
        match qs with
        | some qstart =>
          (substrLen line (me + 1) (qstart - me - 2), substrLen line qstart (e - qstart))
        | none => (substrLen line (me + 1) (e - me - 1), query0)
      match findAt (line.drop (e + 1)) '/' (e + 1) with
      | none => ⟨false, method, pq.1, pq.2, version0, []⟩
      | some pro =>
        if substrLen line (e + 1) (pro - e - 1) = ['H', 'T', 'T', 'P'] then
          ⟨true, method, pq.1, pq.2, substrLen line (pro + 1) (line.length - pro - 2),
            HttpHeader.parse (getline stream).2⟩
        else ⟨false, method, pq.1, pq.2, version0, []⟩

/-- Result record for `ResponseMessage::parse`. -/
structure RespResult where
  ok : Bool
  version : List Char
  status_code : List Char
  header : List (List Char × List Char)
deriving DecidableEq

/-- `ResponseMessage::parse`.  Note `version_end - 5` is a `size_t`
subtraction: when the first space sits before offset 5 it wraps around and
`substr` is clamped to the end of the line (`sizeSub`). -/
def ResponseMessage.parse (stream version0 status0 : List Char)
    (header0 : List (List Char × List Char)) : RespResult :=
  let line := (getline stream).1
  match findAt line ' ' 0 with
  | none => ⟨false, version0, status0, []⟩
  | some ve =>
    if 5 < line.length then
      let version := substrLen line 5 (sizeSub ve 5)
      if ve + 1 < line.length then
        ⟨true, version, substrLen line (ve + 1) (line.length - (ve + 1) - 1),
          HttpHeader.parse (getline stream).2⟩
      else ⟨false, version, status0, []⟩
    else ⟨false, version0, status0, []⟩

end SimpleWeb

namespace SimpleWeb

theorem reqScan_no_query (line : List Char) (seg : List Char) :
    ∀ (rem : List Char) (i : Nat) (qs : Option Nat),
    ' ' ∉ seg → '?' ∉ seg →
    reqScan line (seg ++ ' ' :: rem) i qs = (qs, some (i + seg.length)) := by
  induction seg with
  | nil =>
    intro rem i qs _ _
    simp [reqScan]
  | cons ch cs ih =>
    intro rem i qs hsp hq
    simp only [List.mem_cons, not_or] at hsp hq
    have h1 : ¬ (ch = '?' ∧ i + 1 < line.length) := fun hh => hq.1 hh.1.symm
    have h2 : ¬ ch = ' ' := fun hh => hsp.1 hh.symm
    simp only [List.cons_append, reqScan, List.append_eq, if_neg h1, if_neg h2]
    rw [ih rem (i + 1) qs hsp.2 hq.2]
    simp only [List.length_cons]
    exact congrArg _ (congrArg some (by omega))

theorem reqScan_last_query (line : List Char) (seg : List Char) :
    ∀ (rem : List Char) (i : Nat) (qs : Option Nat) (l : Nat),
    ' ' ∉ seg → lastIdxOf seg '?' = some l → i + seg.length < line.length →
    reqScan line (seg ++ ' ' :: rem) i qs = (some (i + l + 1), some (i + seg.length)) := by
  induction seg with
  | nil =>
    intro rem i qs l _ hl _
    simp [lastIdxOf] at hl
  | cons ch cs ih =>
    intro rem i qs l hsp hl hlen
    simp only [List.mem_cons, not_or] at hsp
    have h2 : ¬ ch = ' ' := fun hh => hsp.1 hh.symm
    simp only [List.length_cons] at hlen
    simp only [lastIdxOf] at hl
    cases hcs : lastIdxOf cs '?' with
    | some j =>
      rw [hcs] at hl
      simp only [Option.some.injEq] at hl
      by_cases hch : ch = '?'
      · have hcond : ch = '?' ∧ i + 1 < line.length := ⟨hch, by omega⟩
        simp only [List.cons_append, reqScan, List.append_eq, if_pos hcond]
        rw [ih rem (i + 1) (some (i + 1)) j hsp.2 hcs (by omega)]
        simp only [List.length_cons]
        exact congrArg₂ _ (congrArg some (by omega)) (congrArg some (by omega))
      · have hcond : ¬ (ch = '?' ∧ i + 1 < line.length) := fun hh => hch hh.1
        simp only [List.cons_append, reqScan, List.append_eq, if_neg hcond, if_neg h2]
        rw [ih rem (i + 1) qs j hsp.2 hcs (by omega)]
        simp only [List.length_cons]
        exact congrArg₂ _ (congrArg some (by omega)) (congrArg some (by omega))
    | none =>
      rw [hcs] at hl
      have hch : ch = '?' ∧ l = 0 := by
        by_cases hc2 : ch = '?'
        · rw [if_pos hc2] at hl
          exact ⟨hc2, by simpa using hl.symm⟩
        · rw [if_neg hc2] at hl
          exact absurd hl (by simp)
      have hcond : ch = '?' ∧ i + 1 < line.length := ⟨hch.1, by omega⟩
      simp only [List.cons_append, reqScan, List.append_eq, if_pos hcond]
      have hnq : '?' ∉ cs := (lastIdxOf_eq_none cs '?').mp hcs
      rw [reqScan_no_query line cs rem (i + 1) (some (i + 1)) hsp.2 hnq]
      simp only [List.length_cons]
      exact congrArg₂ _ (congrArg some (by omega)) (congrArg some (by omega))

end SimpleWeb

namespace SimpleWeb

/-- The loop body of `ContentDisposition::parse`.  `line` is the whole input,
`rem` the unscanned suffix (`line.drop c`), `c` the loop index, and
`ps`/`pe`/`vs` model `para_start_pos`/`para_end_pos`/`value_start_pos`
(`none` = `npos`).  After the loop, a pending name with no `'='` seen is
emitted with an empty value. -/
def cdGo (line : List Char) : List Char → Nat → Option Nat → Option Nat → Option Nat →
    List (List Char × List Char)
  | [], _, ps, pe, _ =>
    match ps, pe with
    | some p, none => [(substrFrom line p, [])]
    | _, _ => []
  | ch :: rest, c, ps, pe, vs =>
    match ps with
    | none =>
      if ch ≠ ' ' ∧ ch ≠ ';' then cdGo line rest (c + 1) (some c) pe vs
      else cdGo line rest (c + 1) none pe vs
    | some p =>
      match pe with
      | none =>
        if ch = ';' then
          (substrLen line p (c - p), []) :: cdGo line rest (c + 1) none none vs
        else if ch = '=' then cdGo line rest (c + 1) (some p) (some c) vs
        else cdGo line rest (c + 1) (some p) none vs
      | some q =>
        match vs with
        | none =>
          if ch = '"' ∧ c + 1 < line.length then cdGo line rest (c + 1) (some p) (some q) (some (c + 1))
          else cdGo line rest (c + 1) (some p) (some q) none
        | some v =>
          if ch = '"' then
            (substrLen line p (q - p), substrLen line v (c - v)) :: cdGo line rest (c + 1) none none none
          else cdGo line rest (c + 1) (some p) (some q) (some v)

/-- `ContentDisposition::parse` (note `para_start_pos` starts at `0`, not
`npos`). -/
def ContentDisposition.parse (line : List Char) : List (List Char × List Char) :=
  cdGo line line 0 (some 0) none none

theorem cdGo_name_skip (line : List Char) (seg : List Char) :
    ∀ (rem : List Char) (c p : Nat) (vs : Option Nat),
    (∀ ch ∈ seg, ch ≠ ';' ∧ ch ≠ '=') →
    cdGo line (seg ++ rem) c (some p) none vs =
      cdGo line rem (c + seg.length) (some p) none vs := by
  induction seg with
  | nil => intro rem c p vs _; simp
  | cons ch cs ih =>
    intro rem c p vs h
    have hch := h ch (List.mem_cons_self ch cs)
    have hcs : ∀ x ∈ cs, x ≠ ';' ∧ x ≠ '=' := fun x hx => h x (List.mem_cons_of_mem ch hx)
    simp only [List.cons_append, cdGo, List.append_eq, if_neg hch.1, if_neg hch.2]
    rw [ih rem (c + 1) p vs hcs]
    congr 1
    simp only [List.length_cons]
    omega

theorem cdGo_await_skip (line : List Char) (seg : List Char) :
    ∀ (rem : List Char) (c p q : Nat),
    (∀ ch ∈ seg, ch ≠ '"') →
    cdGo line (seg ++ rem) c (some p) (some q) none =
      cdGo line rem (c + seg.length) (some p) (some q) none := by
  induction seg with
  | nil => intro rem c p q _; simp
  | cons ch cs ih =>
    intro rem c p q h
    have hch := h ch (List.mem_cons_self ch cs)
    have hcs : ∀ x ∈ cs, x ≠ '"' := fun x hx => h x (List.mem_cons_of_mem ch hx)
    have hcond : ¬ (ch = '"' ∧ c + 1 < line.length) := fun hh => hch hh.1
    simp only [List.cons_append, cdGo, List.append_eq, if_neg hcond]
    rw [ih rem (c + 1) p q hcs]
    congr 1
    simp only [List.length_cons]
    omega

theorem cdGo_value_skip (line : List Char) (seg : List Char) :
    ∀ (rem : List Char) (c p q v : Nat),
    (∀ ch ∈ seg, ch ≠ '"') →
    cdGo line (seg ++ rem) c (some p) (some q) (some v) =
      cdGo line rem (c + seg.length) (some p) (some q) (some v) := by
  induction seg with
  | nil => intro rem c p q v _; simp
  | cons ch cs ih =>
    intro rem c p q v h
    have hch := h ch (List.mem_cons_self ch cs)
    have hcs : ∀ x ∈ cs, x ≠ '"' := fun x hx => h x (List.mem_cons_of_mem ch hx)
    simp only [List.cons_append, cdGo, List.append_eq, if_neg hch]
    rw [ih rem (c + 1) p q v hcs]
    congr 1
    simp only [List.length_cons]
    omega

end SimpleWeb

namespace SimpleWeb

theorem not_mem_of_pair (seg : List Char) (h1 : ';' ∉ seg) (h2 : '=' ∉ seg) :
    ∀ ch ∈ seg, ch ≠ ';' ∧ ch ≠ '=' := by
  intro ch hch
  exact ⟨fun hh => h1 (hh ▸ hch), fun hh => h2 (hh ▸ hch)⟩

theorem not_mem_of_quote (seg : List Char) (h : '"' ∉ seg) : ∀ ch ∈ seg, ch ≠ '"' := by
  intro ch hch
  exact fun hh => h (hh ▸ hch)

theorem cdGo_step_assign (line rest : List Char) (c p : Nat) (vs : Option Nat) :
    cdGo line ('=' :: rest) c (some p) none vs =
      cdGo line rest (c + 1) (some p) (some c) vs := by
  simp [cdGo]

theorem cdGo_step_open (line rest : List Char) (c p q : Nat) (h : c + 1 < line.length) :
    cdGo line ('"' :: rest) c (some p) (some q) none =
      cdGo line rest (c + 1) (some p) (some q) (some (c + 1)) := by
  simp [cdGo, h]

theorem cdGo_step_noopen (line rest : List Char) (c p q : Nat) (h : ¬ c + 1 < line.length) :
    cdGo line ('"' :: rest) c (some p) (some q) none =
      cdGo line rest (c + 1) (some p) (some q) none := by
  simp [cdGo, h]

theorem cdGo_step_close (line rest : List Char) (c p q v : Nat) :
    cdGo line ('"' :: rest) c (some p) (some q) (some v) =
      (substrLen line p (q - p), substrLen line v (c - v)) :: cdGo line rest (c + 1) none none none := by
  simp [cdGo]

theorem cdGo_end_value (line : List Char) (c p q : Nat) (vs : Option Nat) :
    cdGo line [] c (some p) (some q) vs = [] := rfl

theorem cdGo_end_bare (line : List Char) (c p : Nat) (vs : Option Nat) :
    cdGo line [] c (some p) none vs = [(substrFrom line p, [])] := rfl

theorem cdGo_end_seek (line : List Char) (c : Nat) (pe vs : Option Nat) :
    cdGo line [] c none pe vs = [] := by
  cases pe <;> rfl

/-- A trailing bare parameter name (no `';'`, no `'='` anywhere) is emitted at
end of input with an empty value. -/
theorem cd_parse_bare (name : List Char) (h1 : ';' ∉ name) (h2 : '=' ∉ name) :
    ContentDisposition.parse name = [(name, [])] := by
  rw [ContentDisposition.parse]
  have hskip := cdGo_name_skip name name [] 0 0 none (not_mem_of_pair name h1 h2)
  rw [List.append_nil] at hskip
  rw [hskip, cdGo_end_bare]
  simp [substrFrom]

theorem count_le_one_split (l : List Char) (hm : '"' ∈ l) (hc : l.count '"' ≤ 1) :
    ∃ j1 j2, l = j1 ++ '"' :: j2 ∧ '"' ∉ j1 ∧ '"' ∉ j2 := by
  induction l with
  | nil => simp at hm
  | cons c t ih =>
    by_cases hcq : c = '"'
    · subst hcq
      refine ⟨[], t, rfl, by simp, ?_⟩
      rw [List.count_cons_self] at hc
      have ht : t.count '"' = 0 := by omega
      exact (List.count_eq_zero).mp ht
    · have hmt : '"' ∈ t := by
        rcases List.mem_cons.mp hm with hh | hh
        · exact absurd hh.symm hcq
        · exact hh
      have hct : t.count '"' ≤ 1 := by
        rw [List.count_cons] at hc
        omega
      rcases ih hmt hct with ⟨j1, j2, hsplit, hj1, hj2⟩
      exact ⟨c :: j1, j2, by rw [hsplit]; rfl, by
        simp only [List.mem_cons, not_or]
        exact ⟨fun hh => hcq hh.symm, hj1⟩, hj2⟩

/-- A parameter name followed by `'='` whose value never reaches a closing
quote produces no entry at all. -/
theorem cd_parse_unclosed (name rest : List Char) (h1 : ';' ∉ name) (h2 : '=' ∉ name)
    (hq : rest.count '"' ≤ 1) :
    ContentDisposition.parse (name ++ '=' :: rest) = [] := by
  rw [ContentDisposition.parse]
  set line := name ++ '=' :: rest with hline
  have hlen : line.length = name.length + 1 + rest.length := by
    rw [hline]
    simp
    omega
  have hskip := cdGo_name_skip line name ('=' :: rest) 0 0 none (not_mem_of_pair name h1 h2)
  simp only [Nat.zero_add] at hskip
  rw [hskip, cdGo_step_assign]
  by_cases hmem : '"' ∈ rest
  · rcases count_le_one_split rest hmem hq with ⟨j1, j2, hsplit, hj1, hj2⟩
    rw [hsplit]
    have hawait := cdGo_await_skip line j1 ('"' :: j2) (name.length + 1) 0 name.length
      (not_mem_of_quote j1 hj1)
    rw [hawait]
    cases j2 with
    | nil =>
      have hcond : ¬ (name.length + 1 + j1.length + 1 < line.length) := by
        rw [hlen, hsplit]
        simp
        omega
      rw [cdGo_step_noopen line [] _ 0 name.length hcond, cdGo_end_value]
    | cons x t =>
      have hcond : name.length + 1 + j1.length + 1 < line.length := by
        rw [hlen, hsplit]
        simp
        omega
      rw [cdGo_step_open line (x :: t) _ 0 name.length hcond]
      have hvs := cdGo_value_skip line (x :: t) [] (name.length + 1 + j1.length + 1) 0
        name.length (name.length + 1 + j1.length + 1) (not_mem_of_quote (x :: t) hj2)
      rw [List.append_nil] at hvs
      rw [hvs, cdGo_end_value]
  · have hawait := cdGo_await_skip line rest [] (name.length + 1) 0 name.length
      (not_mem_of_quote rest hmem)
    rw [List.append_nil] at hawait
    rw [hawait, cdGo_end_value]

end SimpleWeb

namespace SimpleWeb

/-- Characters between `'='` and the opening quote are discarded: the emitted
entry pairs the name with exactly the text between the quotes. -/
theorem cd_parse_quoted (name junk val : List Char) (h1 : ';' ∉ name) (h2 : '=' ∉ name)
    (h3 : '"' ∉ junk) (h4 : '"' ∉ val) :
    ContentDisposition.parse (name ++ '=' :: (junk ++ '"' :: (val ++ ['"']))) = [(name, val)] := by
  rw [ContentDisposition.parse]
  have hlen : (name ++ '=' :: (junk ++ '"' :: (val ++ ['"']))).length
      = name.length + junk.length + val.length + 3 := by
    simp
    omega
  have hskip := cdGo_name_skip (name ++ '=' :: (junk ++ '"' :: (val ++ ['"'])))
    name ('=' :: (junk ++ '"' :: (val ++ ['"']))) 0 0 none (not_mem_of_pair name h1 h2)
  simp only [Nat.zero_add] at hskip
  rw [hskip, cdGo_step_assign]
  have hawait := cdGo_await_skip (name ++ '=' :: (junk ++ '"' :: (val ++ ['"'])))
    junk ('"' :: (val ++ ['"'])) (name.length + 1) 0 name.length (not_mem_of_quote junk h3)
  rw [hawait]
  have hcond : name.length + 1 + junk.length + 1
      < (name ++ '=' :: (junk ++ '"' :: (val ++ ['"']))).length := by
    rw [hlen]
    omega
  rw [cdGo_step_open _ (val ++ ['"']) _ 0 name.length hcond]
  have hvs := cdGo_value_skip (name ++ '=' :: (junk ++ '"' :: (val ++ ['"'])))
    val ['"'] (name.length + 1 + junk.length + 1) 0 name.length
    (name.length + 1 + junk.length + 1) (not_mem_of_quote val h4)
  rw [hvs, cdGo_step_close, cdGo_end_seek]
  have e1 : name.length - 0 = name.length := by omega
  have e2 : name.length + 1 + junk.length + 1 + val.length - (name.length + 1 + junk.length + 1)
      = val.length := by omega
  rw [e1, e2]
  have hname : substrLen (name ++ '=' :: (junk ++ '"' :: (val ++ ['"']))) 0 name.length
      = name := by
    rw [substrLen, List.drop_zero]
    exact List.take_left' rfl
  have hval : substrLen (name ++ '=' :: (junk ++ '"' :: (val ++ ['"'])))
      (name.length + 1 + junk.length + 1) val.length = val := by
    have hsplit : name ++ '=' :: (junk ++ '"' :: (val ++ ['"']))
        = (name ++ '=' :: (junk ++ ['"'])) ++ (val ++ ['"']) := by
      simp
    have hAlen : (name ++ '=' :: (junk ++ ['"'])).length
        = name.length + 1 + junk.length + 1 := by
      simp
      omega
    rw [substrLen, hsplit, List.drop_left' hAlen]
    exact List.take_left' rfl
  rw [hname, hval]

end SimpleWeb

namespace SimpleWeb

/-- State of a `ScopeRunner`: the atomic counter `count` plus (for the model)
the number of live `SharedLock` guards whose destructor has not yet run. -/
structure RunnerState where
  count : Int
  guards : Nat
deriving DecidableEq

/-- The atomic operations of `ScopeRunner`, one label per linearisation
point. -/
inductive RunnerOp where
  | enterOk
  | enterFail
  | releaseGuard
  | stopOk
  | stopNoop
deriving DecidableEq

/-- One atomic step of a `ScopeRunner`:
* `enterOk`: the CAS in `continue_lock` succeeds on an observed value `≥ 0`,
  incrementing the counter and handing out a guard;
* `enterFail`: `continue_lock` observes a negative counter and returns
  `nullptr` without touching the state;
* `releaseGuard`: a live guard's destructor runs `count.fetch_sub(1)`;
* `stopOk`: the CAS in `stop` succeeds, swapping `0` for `-1`;
* `stopNoop`: `stop` observes a negative counter and returns. -/
inductive RunnerStep : RunnerState → RunnerOp → RunnerState → Prop where
  | enterOk (s : RunnerState) (h : 0 ≤ s.count) :
      RunnerStep s RunnerOp.enterOk ⟨s.count + 1, s.guards + 1⟩
  | enterFail (s : RunnerState) (h : s.count < 0) :
      RunnerStep s RunnerOp.enterFail s
  | releaseGuard (s : RunnerState) (h : 0 < s.guards) :
      RunnerStep s RunnerOp.releaseGuard ⟨s.count - 1, s.guards - 1⟩
  | stopOk (s : RunnerState) (h : s.count = 0) :
      RunnerStep s RunnerOp.stopOk ⟨-1, s.guards⟩
  | stopNoop (s : RunnerState) (h : s.count < 0) :
      RunnerStep s RunnerOp.stopNoop s

/-- States reachable from the constructor state `⟨0, 0⟩`. -/
inductive RunnerReachable : RunnerState → Prop where
  | init : RunnerReachable ⟨0, 0⟩
  | step (s : RunnerState) (op : RunnerOp) (s2 : RunnerState) :
      RunnerReachable s → RunnerStep s op s2 → RunnerReachable s2

/-- The inductive invariant: while open the counter equals the number of live
guards; once closed it is exactly `-1` and no guard is live. -/
def runnerInv (s : RunnerState) : Prop :=
  (0 ≤ s.count ∧ s.count = s.guards) ∨ (s.count = -1 ∧ s.guards = 0)

theorem runnerInv_init : runnerInv ⟨0, 0⟩ := Or.inl ⟨le_refl 0, rfl⟩

theorem runnerInv_step (s : RunnerState) (op : RunnerOp) (s2 : RunnerState)
    (hinv : runnerInv s) (hstep : RunnerStep s op s2) : runnerInv s2 := by
  cases hstep with
  | enterOk h =>
    dsimp only [runnerInv] at hinv ⊢
    omega
  | enterFail h => exact hinv
  | releaseGuard h =>
    dsimp only [runnerInv] at hinv ⊢
    omega
  | stopOk h =>
    dsimp only [runnerInv] at hinv ⊢
    omega
  | stopNoop h => exact hinv

theorem runnerInv_reachable (s : RunnerState) (h : RunnerReachable s) : runnerInv s := by
  induction h with
  | init => exact runnerInv_init
  | step s op s2 _ hstep ih => exact runnerInv_step s op s2 ih hstep

end SimpleWeb
namespace SimpleWeb

theorem req_ok_or_header_empty (stream m0 p0 q0 v0 : List Char)
    (h0 : List (List Char × List Char)) :
    (RequestMessage.parse stream m0 p0 q0 v0 h0).ok = true ∨
      (RequestMessage.parse stream m0 p0 q0 v0 h0).header = [] := by
  rw [RequestMessage.parse]
  repeat' split
  all_goals simp

/-- The failure condition of `RequestMessage::parse`, stated on the first
line of the stream: no space at all, or no second space terminating the
target, or no `'/'` after it, or the text between that space and the `'/'`
differing from `"HTTP"`. -/
def reqFailCond (line : List Char) : Prop :=
  match findAt line ' ' 0 with
  | none => True
  | some me =>
    match (reqScan line (line.drop (me + 1)) (me + 1) none).2 with
    | none => True
    | some e =>
      match findAt (line.drop (e + 1)) '/' (e + 1) with
      | none => True
      | some pro => ¬ substrLen line (e + 1) (pro - e - 1) = ['H', 'T', 'T', 'P']

theorem req_fail_iff (stream m0 p0 q0 v0 : List Char)
    (h0 : List (List Char × List Char)) :
    (RequestMessage.parse stream m0 p0 q0 v0 h0).ok = false ↔
      reqFailCond (getline stream).1 := by
  rw [RequestMessage.parse, reqFailCond]
  cases hf : findAt (getline stream).1 ' ' 0 with
  | none => simp
  | some me =>
    cases hs : reqScan (getline stream).1 ((getline stream).1.drop (me + 1)) (me + 1) none with
    | mk qs pe =>
      cases pe with
      | none => simp only [hs]
      | some e =>
        simp only [hs]
        cases hp : findAt ((getline stream).1.drop (e + 1)) '/' (e + 1) with
        | none => simp only [hp]
        | some pro =>
          simp only [hp]
          by_cases hcmp : substrLen (getline stream).1 (e + 1) (pro - e - 1) = ['H', 'T', 'T', 'P']
          · simp [hcmp]
          · simp [hcmp]

end SimpleWeb
namespace SimpleWeb

theorem req_path_query_last_sep (stream m0 p0 q0 v0 : List Char)
    (h0 : List (List Char × List Char)) (me l : Nat) (pre post : List Char)
    (hme : findAt (getline stream).1 ' ' 0 = some me)
    (hdrop : (getline stream).1.drop (me + 1) = pre ++ ' ' :: post)
    (hsp : ' ' ∉ pre)
    (hl : lastIdxOf pre '?' = some l) :
    (RequestMessage.parse stream m0 p0 q0 v0 h0).path = pre.take l ∧
      (RequestMessage.parse stream m0 p0 q0 v0 h0).query_string = pre.drop (l + 1) := by
  have hlb : l < pre.length := lastIdxOf_le_length pre '?' l hl
  have hlen : (getline stream).1.length = me + 1 + pre.length + 1 + post.length := by
    have h1 := congrArg List.length hdrop
    simp only [List.length_drop, List.length_append, List.length_cons] at h1
    omega
  have hscan := reqScan_last_query (getline stream).1 pre post (me + 1) none l hsp hl (by omega)
  have hpath : substrLen (getline stream).1 (me + 1) (me + 1 + l + 1 - me - 2) = pre.take l := by
    have e1 : me + 1 + l + 1 - me - 2 = l := by omega
    rw [e1, substrLen, hdrop]
    exact List.take_append_of_le_length (by omega)
  have hquery : substrLen (getline stream).1 (me + 1 + l + 1)
      (me + 1 + pre.length - (me + 1 + l + 1)) = pre.drop (l + 1) := by
    have e2 : me + 1 + pre.length - (me + 1 + l + 1) = pre.length - (l + 1) := by omega
    have e3 : me + 1 + l + 1 = (me + 1) + (l + 1) := by omega
    rw [e2, substrLen, e3, ← List.drop_drop, hdrop,
      List.drop_append_of_le_length (by omega)]
    exact List.take_left' (by simp)
  simp only [RequestMessage.parse, hme, hdrop, hscan]
  refine ⟨?_, ?_⟩
  · split
    · exact hpath
    · split
      · exact hpath
      · exact hpath
  · split
    · exact hquery
    · split
      · exact hquery
      · exact hquery

end SimpleWeb
namespace SimpleWeb

theorem resp_fail_iff (stream v0 s0 : List Char) (h0 : List (List Char × List Char)) :
    (ResponseMessage.parse stream v0 s0 h0).ok = false ↔
      (findAt (getline stream).1 ' ' 0 = none ∨ (getline stream).1.length ≤ 5 ∨
        ∃ ve, findAt (getline stream).1 ' ' 0 = some ve ∧
          (getline stream).1.length ≤ ve + 1) := by
  rw [ResponseMessage.parse]
  cases hf : findAt (getline stream).1 ' ' 0 with
  | none => simp
  | some ve =>
    by_cases h5 : 5 < (getline stream).1.length
    · by_cases hv : ve + 1 < (getline stream).1.length
      · simp [h5, hv]
      · simp [h5, hv]
        omega
    · simp [h5]
      omega

theorem resp_success_fields (stream v0 s0 : List Char) (h0 : List (List Char × List Char))
    (ve : Nat) (hbig : (getline stream).1.length < 2 ^ 64)
    (hve : findAt (getline stream).1 ' ' 0 = some ve)
    (hok : (ResponseMessage.parse stream v0 s0 h0).ok = true) :
    (ResponseMessage.parse stream v0 s0 h0).version =
      (if 5 ≤ ve then substrLen (getline stream).1 5 (ve - 5)
        else (getline stream).1.drop 5) ∧
    (ResponseMessage.parse stream v0 s0 h0).status_code =
      substrLen (getline stream).1 (ve + 1) ((getline stream).1.length - (ve + 1) - 1) := by
  rw [ResponseMessage.parse] at hok ⊢
  rw [hve] at hok ⊢
  by_cases h5 : 5 < (getline stream).1.length
  · by_cases hv : ve + 1 < (getline stream).1.length
    · simp only [h5, if_true, hv]
      constructor
      · by_cases hge : 5 ≤ ve
        · rw [if_pos hge]
          simp only [sizeSub, if_pos hge]
        · rw [if_neg hge]
          simp only [sizeSub, if_neg hge, substrLen]
          apply List.take_of_length_le
          simp only [List.length_drop]
          omega
      · trivial
    · simp only [h5, if_true, hv, if_false] at hok
      exact absurd hok (by decide)
  · simp only [h5, if_false] at hok
    exact absurd hok (by decide)

end SimpleWeb

namespace SimpleWeb

/-! ### Claim theorems -/

/-- Claim C1, counterexample: `Percent::encode` does *not* escape `'%'`
(`'%'` sits between `'$'` and `'&'`, outside every reserved range), so a
string containing `'%'` followed by two characters that decode as hex is not
a fixed point of `decode ∘ encode`: `encode "%aa" = "%aa"` and
`decode "%aa"` is the single byte `0xAA`. -/
theorem C1_counterexample :
    Percent.decode (Percent.encode ("%aa".toList)) ≠ "%aa".toList := by decide

/-- Claim C1, amended: for every string `x` that contains no `'%'`,
`Percent.decode (Percent.encode x) = x`. -/
theorem C1_decode_encode_roundtrip (x : List Char) (h : '%' ∉ x) :
    Percent.decode (Percent.encode x) = x :=
  decode_encode x h

/-- Witness for C1 at the concrete string `"a+b c!"`. -/
theorem C1_decode_encode_roundtrip_witness :
    '%' ∉ ("a+b c!".toList) ∧
      Percent.decode (Percent.encode ("a+b c!".toList)) = "a+b c!".toList :=
  ⟨by decide, C1_decode_encode_roundtrip _ (by decide)⟩

/-- Claim C2, counterexample: `QueryString::parse` overwrites
`name_end_pos`/`value_pos` at *every* `'='`, so a segment is divided at its
last `'='`, not its first: parsing `"a=b=c&&"` yields the single entry
`("a=b", "c")` (and no entry at all for the empty segments), whereas the
claim predicts `("a", "b=c")` plus empty-named entries. -/
theorem C2_counterexample :
    QueryString.parse ("a=b=c&&".toList) = [("a=b".toList, "c".toList)] ∧
      ("a".toList, "b=c".toList) ∉ QueryString.parse ("a=b=c&&".toList) := by decide

/-- Claim C2, amended: `QueryString::parse` splits the query on `'&'` and
divides each segment at the *last* `'='` in that segment (name before it,
percent-decoded value after it); a segment with no `'='` is all name with an
empty value; segments whose name comes out empty produce no entry.  This is
exactly the spec-side scanner `segsOut`/`segEntry`. -/
theorem C2_parse_divides_at_last_eq (q : List Char) :
    QueryString.parse q = QueryString.segsOut q [] :=
  QueryString.parse_eq_segsOut q

/-- Claim C3, counterexample: the request-line scanner overwrites
`query_start` at every `'?'` before the terminating space, so the *last*
`'?'` separates path from query: on `"GET /a?x?y XTTP/1.1\r\n"` the path
out-parameter becomes `"/a?x"` and the query string `"y"`, not `"/a"` and
`"x?y"` as the claim predicts. -/
theorem C3_counterexample :
    (RequestMessage.parse ("GET /a?x?y XTTP/1.1\r\n".toList) [] [] [] [] []).path
        = "/a?x".toList ∧
      (RequestMessage.parse ("GET /a?x?y XTTP/1.1\r\n".toList) [] [] [] [] []).query_string
        = "y".toList ∧
      (RequestMessage.parse ("GET /a?x?y XTTP/1.1\r\n".toList) [] [] [] [] []).path
        ≠ "/a".toList ∧
      (RequestMessage.parse ("GET /a?x?y XTTP/1.1\r\n".toList) [] [] [] [] []).query_string
        ≠ "x?y".toList := by decide

/-- Claim C3, amended: when the first line of the stream has a first space at
`me`, and the text after it up to the next space is `pre` whose *last* `'?'`
sits at (relative) index `l`, then `RequestMessage::parse` sets the path
out-parameter to the text before that last `'?'` and the query-string
out-parameter to the text between it and the terminating space. -/
theorem C3_request_last_query (stream m0 p0 q0 v0 : List Char)
    (h0 : List (List Char × List Char)) (me l : Nat) (pre post : List Char)
    (hme : findAt (getline stream).1 ' ' 0 = some me)
    (hdrop : (getline stream).1.drop (me + 1) = pre ++ ' ' :: post)
    (hsp : ' ' ∉ pre)
    (hl : lastIdxOf pre '?' = some l) :
    (RequestMessage.parse stream m0 p0 q0 v0 h0).path = pre.take l ∧
      (RequestMessage.parse stream m0 p0 q0 v0 h0).query_string = pre.drop (l + 1) :=
  req_path_query_last_sep stream m0 p0 q0 v0 h0 me l pre post hme hdrop hsp hl

/-- Witness for C3 on `"GET /a?x?y HTTP/1.1\r\n"`. -/
theorem C3_request_last_query_witness :
    findAt (getline ("GET /a?x?y HTTP/1.1\r\n".toList)).1 ' ' 0 = some 3 ∧
      (getline ("GET /a?x?y HTTP/1.1\r\n".toList)).1.drop (3 + 1)
        = "/a?x?y".toList ++ ' ' :: "HTTP/1.1\r".toList ∧
      ' ' ∉ ("/a?x?y".toList) ∧
      lastIdxOf ("/a?x?y".toList) '?' = some 4 ∧
      (RequestMessage.parse ("GET /a?x?y HTTP/1.1\r\n".toList) [] [] [] [] []).path
        = ("/a?x?y".toList).take 4 ∧
      (RequestMessage.parse ("GET /a?x?y HTTP/1.1\r\n".toList) [] [] [] [] []).query_string
        = ("/a?x?y".toList).drop 5 := by
  refine ⟨by decide, by decide, by decide, by decide, ?_⟩
  exact C3_request_last_query ("GET /a?x?y HTTP/1.1\r\n".toList) [] [] [] [] [] 3 4
    ("/a?x?y".toList) ("HTTP/1.1\r".toList) (by decide) (by decide) (by decide) (by decide)

/-- Claim C4, counterexample: because `Percent::encode` does not escape
`'%'`, a value containing `'%'` does not survive the
`parse ∘ create` round-trip even with a non-empty key: for
`m = [("k", "%aa")]`, `create m = "k=%aa"` and parsing decodes `"%aa"` to
the byte `0xAA`. -/
theorem C4_counterexample :
    QueryString.parse (QueryString.create [("k".toList, "%aa".toList)])
      ≠ [("k".toList, "%aa".toList)] := by decide

/-- Claim C4, amended: `QueryString.parse (QueryString.create m)` yields
exactly the entries of `m` (in order, hence the same collection) whenever
every key is non-empty and contains no `'&'` and every value contains no
`'%'`. -/
theorem C4_create_parse_roundtrip (m : List (List Char × List Char))
    (h : ∀ p ∈ m, p.1 ≠ [] ∧ '&' ∉ p.1 ∧ '%' ∉ p.2) :
    QueryString.parse (QueryString.create m) = m :=
  QueryString.parse_create m h

/-- Witness for C4 on a concrete two-entry multimap. -/
theorem C4_create_parse_roundtrip_witness :
    (∀ p ∈ [("a".toList, "1 2".toList), ("b".toList, "x=y".toList)],
        p.1 ≠ [] ∧ '&' ∉ p.1 ∧ '%' ∉ p.2) ∧
      QueryString.parse
          (QueryString.create [("a".toList, "1 2".toList), ("b".toList, "x=y".toList)])
        = [("a".toList, "1 2".toList), ("b".toList, "x=y".toList)] :=
  ⟨by decide, C4_create_parse_roundtrip _ (by decide)⟩

/-- Claim C5: in every reachable `ScopeRunner` state the counter is `≥ 0` or
exactly `-1`; once it is `-1` no step changes the state, and in particular no
successful `continue_lock` (`enterOk`) step exists; and a step can only move
the counter to `-1` from a state where it already was `-1`, or where it was
`0` with no outstanding guards via `stop`'s winning CAS. -/
theorem C5_scope_runner_invariant (s : RunnerState) (h : RunnerReachable s) :
    (0 ≤ s.count ∨ s.count = -1) ∧
      (s.count = -1 → ∀ op s2, RunnerStep s op s2 → s2 = s) ∧
      (s.count = -1 → ∀ s2, ¬ RunnerStep s RunnerOp.enterOk s2) ∧
      (∀ op s2, RunnerStep s op s2 → s2.count = -1 →
        s.count = -1 ∨ (s.count = 0 ∧ s.guards = 0 ∧ op = RunnerOp.stopOk)) := by
  have hinv := runnerInv_reachable s h
  refine ⟨?_, ?_, ?_, ?_⟩
  · rcases hinv with ⟨h1, _⟩ | ⟨h1, _⟩
    · exact Or.inl h1
    · exact Or.inr h1
  · intro hneg op s2 hstep
    have hg : s.guards = 0 := by
      rcases hinv with ⟨h1, _⟩ | ⟨_, h2⟩
      · omega
      · exact h2
    cases hstep with
    | enterOk h2 => omega
    | enterFail h2 => rfl
    | releaseGuard h2 => omega
    | stopOk h2 => omega
    | stopNoop h2 => rfl
  · intro hneg s2 hstep
    cases hstep with
    | enterOk h2 => omega
  · intro op s2 hstep hs2
    cases hstep with
    | enterOk h2 =>
      exfalso
      dsimp only at hs2
      rcases hinv with ⟨h1, _⟩ | ⟨h1, _⟩ <;> omega
    | enterFail h2 => exact Or.inl (by omega)
    | releaseGuard h2 =>
      exfalso
      dsimp only at hs2
      rcases hinv with ⟨h1, h3⟩ | ⟨h1, h3⟩ <;> omega
    | stopOk h2 =>
      right
      rcases hinv with ⟨h1, h3⟩ | ⟨h1, h3⟩
      · exact ⟨h2, by omega, rfl⟩
      · omega
    | stopNoop h2 => exact Or.inl hs2

/-- Witness for C5 at the freshly constructed runner state. -/
theorem C5_scope_runner_invariant_witness :
    (0 ≤ (⟨0, 0⟩ : RunnerState).count ∨ (⟨0, 0⟩ : RunnerState).count = -1) ∧
      ((⟨0, 0⟩ : RunnerState).count = -1 →
        ∀ op s2, RunnerStep ⟨0, 0⟩ op s2 → s2 = ⟨0, 0⟩) ∧
      ((⟨0, 0⟩ : RunnerState).count = -1 →
        ∀ s2, ¬ RunnerStep ⟨0, 0⟩ RunnerOp.enterOk s2) ∧
      (∀ op s2, RunnerStep ⟨0, 0⟩ op s2 → s2.count = -1 →
        (⟨0, 0⟩ : RunnerState).count = -1 ∨
          ((⟨0, 0⟩ : RunnerState).count = 0 ∧ (⟨0, 0⟩ : RunnerState).guards = 0 ∧
            op = RunnerOp.stopOk)) :=
  C5_scope_runner_invariant ⟨0, 0⟩ RunnerReachable.init

/-- Claim C6: `RequestMessage::parse` fails exactly when the request line has
no space, or no second space terminating the target, or no `'/'` after the
target, or the text between the target-terminating space and that `'/'` is
not the literal `"HTTP"` (`reqFailCond`); in particular it fails on
`"BADLINE\r\n"`. -/
theorem C6_request_failure_iff :
    (∀ (stream m0 p0 q0 v0 : List Char) (h0 : List (List Char × List Char)),
        ((RequestMessage.parse stream m0 p0 q0 v0 h0).ok = false ↔
          reqFailCond (getline stream).1)) ∧
      (RequestMessage.parse ("BADLINE\r\n".toList) [] [] [] [] []).ok = false :=
  ⟨fun stream m0 p0 q0 v0 h0 => req_fail_iff stream m0 p0 q0 v0 h0, by decide⟩

/-- Claim C7, counterexample: on `"AB C DEFG\r\n"` the first space is at
index 2, before the fixed offset 5, yet parsing *succeeds* and the `size_t`
wrap-around in `version_end - 5` makes the version the text from offset 5 to
the end of the line (`"DEFG\r"`), not the (empty) text "from offset 5 up to
the first space" that the claim describes. -/
theorem C7_counterexample :
    (ResponseMessage.parse ("AB C DEFG\r\n".toList) [] [] []).ok = true ∧
      findAt (getline ("AB C DEFG\r\n".toList)).1 ' ' 0 = some 2 ∧
      (ResponseMessage.parse ("AB C DEFG\r\n".toList) [] [] []).version
        = "DEFG\r".toList ∧
      (ResponseMessage.parse ("AB C DEFG\r\n".toList) [] [] []).version ≠ [] := by decide

/-- Claim C7, amended: `ResponseMessage::parse` fails exactly when the status
line has no space, or has 5 or fewer characters, or nothing follows the first
space; on success the status is the text after the first space with the last
character dropped, and the version is the text from offset 5 up to the first
space *when that space is at offset ≥ 5*, and the text from offset 5 to the
end of the line otherwise (size_t wrap-around); `"HTTP/1.1 200 OK\r\n"`
parses to version `"1.1"` and status `"200 OK"`. -/
theorem C7_response_parse :
    (∀ (stream v0 s0 : List Char) (h0 : List (List Char × List Char)),
        ((ResponseMessage.parse stream v0 s0 h0).ok = false ↔
          (findAt (getline stream).1 ' ' 0 = none ∨ (getline stream).1.length ≤ 5 ∨
            ∃ ve, findAt (getline stream).1 ' ' 0 = some ve ∧
              (getline stream).1.length ≤ ve + 1))) ∧
      (∀ (stream v0 s0 : List Char) (h0 : List (List Char × List Char)) (ve : Nat),
        (getline stream).1.length < 2 ^ 64 →
        findAt (getline stream).1 ' ' 0 = some ve →
        (ResponseMessage.parse stream v0 s0 h0).ok = true →
        (ResponseMessage.parse stream v0 s0 h0).version =
          (if 5 ≤ ve then substrLen (getline stream).1 5 (ve - 5)
            else (getline stream).1.drop 5) ∧
        (ResponseMessage.parse stream v0 s0 h0).status_code =
          substrLen (getline stream).1 (ve + 1) ((getline stream).1.length - (ve + 1) - 1)) ∧
      ((ResponseMessage.parse ("HTTP/1.1 200 OK\r\n".toList) [] [] []).ok = true ∧
        (ResponseMessage.parse ("HTTP/1.1 200 OK\r\n".toList) [] [] []).version
          = "1.1".toList ∧
        (ResponseMessage.parse ("HTTP/1.1 200 OK\r\n".toList) [] [] []).status_code
          = "200 OK".toList) :=
  ⟨fun stream v0 s0 h0 => resp_fail_iff stream v0 s0 h0,
    fun stream v0 s0 h0 ve hbig hve hok => resp_success_fields stream v0 s0 h0 ve hbig hve hok,
    by decide⟩

/-- Witness for C7's success-description on the example status line. -/
theorem C7_response_parse_witness :
    (getline ("HTTP/1.1 200 OK\r\n".toList)).1.length < 2 ^ 64 ∧
      findAt (getline ("HTTP/1.1 200 OK\r\n".toList)).1 ' ' 0 = some 8 ∧
      (ResponseMessage.parse ("HTTP/1.1 200 OK\r\n".toList) [] [] []).ok = true ∧
      ((ResponseMessage.parse ("HTTP/1.1 200 OK\r\n".toList) [] [] []).version =
          (if 5 ≤ 8 then substrLen (getline ("HTTP/1.1 200 OK\r\n".toList)).1 5 (8 - 5)
            else (getline ("HTTP/1.1 200 OK\r\n".toList)).1.drop 5) ∧
        (ResponseMessage.parse ("HTTP/1.1 200 OK\r\n".toList) [] [] []).status_code =
          substrLen (getline ("HTTP/1.1 200 OK\r\n".toList)).1 (8 + 1)
            ((getline ("HTTP/1.1 200 OK\r\n".toList)).1.length - (8 + 1) - 1)) := by
  refine ⟨by decide, by decide, by decide, ?_⟩
  exact C7_response_parse.2.1 ("HTTP/1.1 200 OK\r\n".toList) [] [] [] 8
    (by decide) (by decide) (by decide)

/-- Claim C8, counterexample: a consumed line that contains a `':'` with
nothing after it emits *no* entry (the `value_start < line.size()` guard
fails): on the stream `"A:\n\n"` the first line `"A:"` contains `':'` yet the
result is empty, contradicting "for each consumed line containing a `:` it
emits one entry". -/
theorem C8_counterexample :
    HttpHeader.parse ('A' :: ':' :: '\n' :: '\n' :: []) = [] := by
  have h1 := HttpHeader.parse_line ('A' :: ':' :: []) ('\n' :: []) (by decide)
  rw [show ('A' :: ':' :: '\n' :: '\n' :: ([] : List Char))
      = ('A' :: ':' :: []) ++ '\n' :: ('\n' :: []) from rfl, h1]
  have h2 := HttpHeader.parse_line [] [] (by decide)
  rw [show ('\n' :: ([] : List Char)) = ([] : List Char) ++ '\n' :: [] from rfl, h2]
  decide

/-- Claim C8, amended: `HttpHeader::parse` never fails; for each consumed
line containing a `':'` it emits one entry — name before the first `':'`,
value after it with at most one leading space stripped and the last character
dropped — *provided at least one character remains after the `':'` and the
optionally stripped space*, and emits nothing for that line otherwise; it
stops at the first line with no `':'`; on `"Name: value\r\n\r\n"` it yields
exactly `Name ↦ value`. -/
theorem C8_header_parse :
    (∀ (l rest : List Char), '\n' ∉ l →
        HttpHeader.parse (l ++ '\n' :: rest) =
          (match findAt l ':' 0 with
            | none => []
            | some pe => hdrEntry l pe ++ HttpHeader.parse rest)) ∧
      HttpHeader.parse ("Name: value\r\n\r\n".toList)
        = [("Name".toList, "value".toList)] := by
  refine ⟨fun l rest h => HttpHeader.parse_line l rest h, ?_⟩
  have h1 := HttpHeader.parse_line ("Name: value\r".toList) ("\r\n".toList) (by decide)
  rw [show ("Name: value\r\n\r\n".toList)
      = ("Name: value\r".toList) ++ '\n' :: ("\r\n".toList) from rfl, h1]
  have h2 := HttpHeader.parse_line ("\r".toList) [] (by decide)
  rw [show ("\r\n".toList) = ("\r".toList) ++ '\n' :: ([] : List Char) from rfl, h2]
  decide

/-- Witness for C8's per-line description on the line `"K: v\r"`. -/
theorem C8_header_parse_witness :
    '\n' ∉ ("K: v\r".toList) ∧
      HttpHeader.parse ("K: v\r".toList ++ '\n' :: []) =
        (match findAt ("K: v\r".toList) ':' 0 with
          | none => []
          | some pe => hdrEntry ("K: v\r".toList) pe ++ HttpHeader.parse []) :=
  ⟨by decide, C8_header_parse.1 _ _ (by decide)⟩

/-- Claim C9: `ContentDisposition::parse` (a) emits a trailing bare name at
end of input with an empty value; (b) emits nothing at all for a name whose
`'='`-introduced value never reaches a closing quote; (c) discards the
characters between `'='` and the opening quote, pairing the name with exactly
the quoted text; (d) on `form-data; name="f"; filename="a.txt"` yields
exactly the three entries of the spec's example. -/
theorem C9_content_disposition :
    (∀ name : List Char, ';' ∉ name → '=' ∉ name →
        ContentDisposition.parse name = [(name, [])]) ∧
      (∀ name rest : List Char, ';' ∉ name → '=' ∉ name → rest.count '"' ≤ 1 →
        ContentDisposition.parse (name ++ '=' :: rest) = []) ∧
      (∀ name junk val : List Char, ';' ∉ name → '=' ∉ name → '"' ∉ junk → '"' ∉ val →
        ContentDisposition.parse (name ++ '=' :: (junk ++ '"' :: (val ++ ['"'])))
          = [(name, val)]) ∧
      ContentDisposition.parse ("form-data; name=\"f\"; filename=\"a.txt\"".toList)
        = [("form-data".toList, []), ("name".toList, "f".toList),
            ("filename".toList, "a.txt".toList)] :=
  ⟨fun name h1 h2 => cd_parse_bare name h1 h2,
    fun name rest h1 h2 hq => cd_parse_unclosed name rest h1 h2 hq,
    fun name junk val h1 h2 h3 h4 => cd_parse_quoted name junk val h1 h2 h3 h4,
    by decide⟩

/-- Witness for C9's three general clauses at concrete inputs. -/
theorem C9_content_disposition_witness :
    (';' ∉ ("token".toList) ∧ '=' ∉ ("token".toList) ∧
        ContentDisposition.parse ("token".toList) = [("token".toList, [])]) ∧
      (("\"ab".toList).count '"' ≤ 1 ∧
        ContentDisposition.parse ("n".toList ++ '=' :: "\"ab".toList) = []) ∧
      ContentDisposition.parse
          ("n".toList ++ '=' :: (" x".toList ++ '"' :: ("v1".toList ++ ['"'])))
        = [("n".toList, "v1".toList)] :=
  ⟨⟨by decide, by decide, C9_content_disposition.1 _ (by decide) (by decide)⟩,
    ⟨by decide, C9_content_disposition.2.1 _ _ (by decide) (by decide) (by decide)⟩,
    C9_content_disposition.2.2.1 _ _ _ (by decide) (by decide) (by decide) (by decide)⟩

/-- Claim C10: `RequestMessage::parse` clears the header out-parameter on
entry and assigns it only on the full-success path, so whenever it returns
`false` the header multimap is empty, regardless of the values the
out-parameters held before the call. -/
theorem C10_header_empty_on_failure (stream m0 p0 q0 v0 : List Char)
    (h0 : List (List Char × List Char))
    (h : (RequestMessage.parse stream m0 p0 q0 v0 h0).ok = false) :
    (RequestMessage.parse stream m0 p0 q0 v0 h0).header = [] := by
  rcases req_ok_or_header_empty stream m0 p0 q0 v0 h0 with hok | hh
  · rw [hok] at h
    exact absurd h (by decide)
  · exact hh

/-- Witness for C10 on `"BADLINE\r\n"` with a stale non-empty header. -/
theorem C10_header_empty_on_failure_witness :
    (RequestMessage.parse ("BADLINE\r\n".toList) "m".toList [] [] []
        [("x".toList, "y".toList)]).ok = false ∧
      (RequestMessage.parse ("BADLINE\r\n".toList) "m".toList [] [] []
        [("x".toList, "y".toList)]).header = [] :=
  ⟨by decide, C10_header_empty_on_failure _ _ _ _ _ _ (by decide)⟩

end SimpleWeb
